import Mathlib

/-!
Verification of the maze / visibility core of the asterion repository
(src/src/game/maze.rs), as a shallow embedding in Lean.

Machine integers (`usize`, `i32`, `u64`) are modelled as `Nat` / `Int`;
fallible or panicking operations return `Option`; the `HashSet` of valid
positions is a `Finset`, and the `HashMap` visibility cache is an
association list.
-/

set_option maxRecDepth 4000

/-- Grid position `(x, y)`, the `Position = (usize, usize)` type of the game. -/
abbrev Pos : Type := Nat × Nat

/-- Modelled from the spec: the `Direction` enum of the game module (the file
defining it is not under src/); one of 8 compass values
(N, NE, E, SE, S, SW, W, NW), exactly the variants matched on in
`Maze::get_and_cache_visible_positions`. -/
inductive Direction : Type
  | North | NorthEast | East | SouthEast | South | SouthWest | West | NorthWest
deriving DecidableEq, Repr

/-- Modelled from the spec: the `View` enum of the game module (the file
defining it is not under src/): tagged variant `Full` (omniscient),
`Circle{radius}`, `Cone{radius}`, `Plane{radius}` with an integer radius. -/
inductive View : Type
  | Full
  | Circle (radius : Nat)
  | Cone (radius : Nat)
  | Plane (radius : Nat)
deriving DecidableEq, Repr

/-- Modelled from the spec: the `radius()` accessor of `View` returns the
stored radius (it is only ever called on non-`Full` views, since the `Full`
case returns early in `get_and_cache_visible_positions`). -/
def View.radius : View → Nat
  | .Full => 0
  | .Circle r => r
  | .Cone r => r
  | .Plane r => r

/-- Key of the visibility memoization cache: `(Position, Direction, View)`. -/
abbrev CacheKey : Type := Pos × Direction × View

/-- The `Maze` aggregate of src/src/game/maze.rs.  The `rng` field is modelled
separately (as an explicit stream threaded through `Maze.build`), and the
raster `image` is modelled by its dimensions `image_width`/`image_height`
plus the `valid_positions` set of transparent pixels. -/
structure Maze : Type where
  id : Nat
  random_seed : Nat
  width : Nat
  height : Nat
  wall_size : Nat
  passage_size : Nat
  image_width : Nat
  image_height : Nat
  valid_positions : Finset Pos
  entrance : List Pos
  exit : List Pos
  power_up_positions : List Pos
  visible_positions_cache : List (CacheKey × Finset Pos)
  success_rate : Nat × Nat
deriving DecidableEq

/-- `Maze::is_valid_position`: membership in the valid-position set. -/
def Maze.is_valid_position (m : Maze) (position : Pos) : Bool :=
  decide (position ∈ m.valid_positions)

/-- Loop body of `bresenham_line`: `for x in x0..=x1 { push; error += delta_y;
if 2*error >= delta_x { y += ystep; error -= delta_x } }`.  The fuel argument
is the number of remaining iterations, `x1 - x + 1`. -/
def bresenham_go (steep : Bool) (delta_x delta_y ystep : Int) :
    Nat → Int → Int → Int → List Pos
  | 0, _, _, _ => []
  | fuel + 1, x, y, error =>
    let cell : Pos := if steep then (y.toNat, x.toNat) else (x.toNat, y.toNat)
    let e2 := error + delta_y
    if 2 * e2 ≥ delta_x then
      cell :: bresenham_go steep delta_x delta_y ystep fuel (x + 1) (y + ystep) (e2 - delta_x)
    else
      cell :: bresenham_go steep delta_x delta_y ystep fuel (x + 1) y e2

/-- `bresenham_line` of src/src/game/maze.rs: the rasterized list of points
from `p` to `q`, transposing when the line is steep and swapping endpoints so
that the loop always walks increasing x. -/
def bresenham_line (p q : Int × Int) : List Pos :=
  let steep := (q.2 - p.2).natAbs > (q.1 - p.1).natAbs
  let a := if steep then (p.2, p.1) else p
  let b := if steep then (q.2, q.1) else q
  let a2 := if a.1 > b.1 then b else a
  let b2 := if a.1 > b.1 then a else b
  let delta_x := b2.1 - a2.1
  let delta_y : Int := ((b2.2 - a2.2).natAbs : Int)
  let ystep : Int := if a2.2 < b2.2 then 1 else -1
  bresenham_go steep delta_x delta_y ystep (delta_x.toNat + 1) a2.1 a2.2 0

/-- The four diagonal corner-cutting cases checked between a walked cell `l`
and the next cell `n` of the rasterized line in
`Maze::get_and_cache_visible_positions`: the step to `n` is diagonal, `n`
itself is traversable, and both orthogonal cells forming the corner are
walls.  The four source cases are mutually exclusive, so they are combined
with `||`. -/
def corner_cut (valid : Pos → Bool) (l n : Pos) : Bool :=
  let lx := l.1; let ly := l.2; let nx := n.1; let ny := n.2
  (decide (nx = lx + 1) && decide (ny + 1 = ly) && valid (nx, ny) &&
    !valid (lx + 1, ly) && !valid (lx, ly - 1)) ||
  (decide (nx = lx + 1) && decide (ny = ly + 1) && valid (nx, ny) &&
    !valid (lx + 1, ly) && !valid (lx, ly + 1)) ||
  (decide (nx + 1 = lx) && decide (ny + 1 = ly) && valid (nx, ny) &&
    !valid (lx - 1, ly) && !valid (lx, ly - 1)) ||
  (decide (nx + 1 = lx) && decide (ny = ly + 1) && valid (nx, ny) &&
    !valid (lx - 1, ly) && !valid (lx, ly + 1))

/-- The vertical/horizontal line walk of `get_and_cache_visible_positions`:
each walked cell, including a wall, is inserted; the walk breaks as soon as a
non-traversable cell is hit.  Returns the list of cells inserted by this
walk, in walking order. -/
def walk_straight (valid : Pos → Bool) : List Pos → List Pos
  | [] => []
  | p :: rest => if !valid p then [p] else p :: walk_straight valid rest

/-- The generic (bresenham) line walk of `get_and_cache_visible_positions`:
like `walk_straight`, but before each step to the next cell the four diagonal
corner-cutting cases may also break the walk.  Returns the list of cells
inserted by this walk, in walking order. -/
def walk_generic (valid : Pos → Bool) : List Pos → List Pos
  | [] => []
  | [p] => [p]
  | p :: n :: rest =>
    if !valid p then [p]
    else if corner_cut valid p n then [p]
    else p :: walk_generic valid (n :: rest)

/-- The iterator `a..=b` when `a < b`, and `(b..=a).rev()` otherwise, as used
for the vertical and horizontal line cases. -/
def straight_range (a b : Nat) : List Nat :=
  if a < b then List.range' a (b - a + 1) else (List.range' b (a - b + 1)).reverse

/-- The rasterized sight line walked from observer `p` toward candidate `c`:
a vertical or horizontal ray for axis-aligned pairs, otherwise the
`bresenham_line`, reversed if its head is not the observer.  (Only called
with `p ≠ c`.) -/
def line_cells (p c : Pos) : List Pos :=
  if p.1 = c.1 then (straight_range p.2 c.2).map (fun ly => (p.1, ly))
  else if p.2 = c.2 then (straight_range p.1 c.1).map (fun lx => (lx, p.2))
  else
    let line := bresenham_line ((p.1 : Int), (p.2 : Int)) ((c.1 : Int), (c.2 : Int))
    match line with
    | [] => []
    | q :: _ => if q = p then line else line.reverse

/-- The set of cells inserted by walking one sight line from `p` toward `c`:
straight lines break only at walls, generic lines additionally at diagonal
corner cuts. -/
def Maze.walk_line (m : Maze) (p c : Pos) : List Pos :=
  if p.1 = c.1 ∨ p.2 = c.2 then walk_straight m.is_valid_position (line_cells p c)
  else walk_generic m.is_valid_position (line_cells p c)

/-- The candidate cells of the radius-bounded double loop, in iteration
order: `dy` outer from `y - r` (saturating) to `min (y + r) image_height`
inclusive, `dx` inner likewise against `image_width`. -/
def Maze.candidate_list (m : Maze) (position : Pos) (r : Nat) : List Pos :=
  let x := position.1; let y := position.2
  let ylo := y - r
  let yhi := min (y + r) m.image_height
  let xlo := x - r
  let xhi := min (x + r) m.image_width
  (List.range' ylo (yhi + 1 - ylo)).flatMap
    (fun dy => (List.range' xlo (xhi + 1 - xlo)).map (fun dx => ((dx, dy) : Pos)))

/-- The full line sweep of `get_and_cache_visible_positions` for a non-`Full`
view: the observer cell is always inserted; a candidate already in the
accumulated set is skipped; otherwise its sight line is walked and every
walked cell is inserted. -/
def Maze.sweep (m : Maze) (position : Pos) (r : Nat) : Finset Pos :=
  (m.candidate_list position r).foldl
    (fun acc cand =>
      if cand = position then insert position acc
      else if cand ∈ acc then acc
      else acc ∪ (m.walk_line position cand).toFinset)
    ∅

/-- The post-sweep bounds filter: `x < image width && y < image height`. -/
def Maze.in_bounds (m : Maze) (p : Pos) : Bool :=
  decide (p.1 < m.image_width) && decide (p.2 < m.image_height)

/-- The post-sweep directional filter of `get_and_cache_visible_positions`:
`Cone` restricts to a diagonal wedge, `Plane` to a strict half-plane,
`Circle` passes everything.  The `Full` branch is unreachable in the source
(that case returned earlier) and is modelled as passing. -/
def direction_filter (position : Pos) (direction : Direction) (view : View) (p : Pos) : Bool :=
  let dx : Int := (p.1 : Int) - (position.1 : Int)
  let dy : Int := (p.2 : Int) - (position.2 : Int)
  match view with
  | View.Cone _ =>
    match direction with
    | .North => decide (dx ≥ dy ∧ dx ≤ -dy)
    | .East => decide (dy ≤ dx ∧ dy ≥ -dx)
    | .South => decide (dx ≤ dy ∧ dx ≥ -dy)
    | .West => decide (dy ≥ dx ∧ dy ≤ -dx)
    | .NorthEast => decide (dx ≥ 0 ∧ dy ≤ 0)
    | .SouthEast => decide (dx ≥ 0 ∧ dy ≥ 0)
    | .SouthWest => decide (dx ≤ 0 ∧ dy ≥ 0)
    | .NorthWest => decide (dx ≤ 0 ∧ dy ≤ 0)
  | View.Plane _ =>
    match direction with
    | .North => decide (dy < 0)
    | .East => decide (dx > 0)
    | .South => decide (dy > 0)
    | .West => decide (dx < 0)
    | .NorthEast => decide (dx > dy)
    | .SouthEast => decide (dx > -dy)
    | .SouthWest => decide (dx < dy)
    | .NorthWest => decide (dx < -dy)
  | View.Circle _ => true
  | View.Full => true

instance insert_left_commutative {α : Type} [DecidableEq α] :
    LeftCommutative (fun (p : α) (s : Finset α) => insert p s) :=
  ⟨fun a b s => Finset.Insert.comm a b s⟩

/-- The `Full` branch of `get_and_cache_visible_positions`: iterate the valid
positions (a `HashSet`, whose iteration order is unspecified — hence the
order-insensitive `Multiset.foldr`) and insert each into a fresh set. -/
def Maze.full_visible_positions (m : Maze) : Finset Pos :=
  m.valid_positions.val.foldr (fun p acc => insert p acc) ∅

/-- The cache-miss computation of `get_and_cache_visible_positions`: for
`Full`, every valid position is inserted into a fresh set; otherwise the
radius-bounded sweep runs and the result is clipped to grid bounds and
filtered by direction. -/
def Maze.compute_visible_positions (m : Maze) (position : Pos) (direction : Direction)
    (view : View) : Finset Pos :=
  if view = View.Full then
    m.full_visible_positions
  else
    let swept := m.sweep position view.radius
    let bounded := swept.filter (fun p => m.in_bounds p = true)
    bounded.filter (fun p => direction_filter position direction view p = true)

/-- Association-list lookup of the visibility cache (`HashMap::get`). -/
def lookup_cache : List (CacheKey × Finset Pos) → CacheKey → Option (Finset Pos)
  | [], _ => none
  | (k, v) :: rest, key => if k = key then some v else lookup_cache rest key

/-- `Maze::get_and_cache_visible_positions`: return the cached set for the
key if present, otherwise compute, store, and return.  The returned pair is
(result, maze after the hidden cache mutation). -/
def Maze.get_and_cache_visible_positions (m : Maze) (position : Pos) (direction : Direction)
    (view : View) : Finset Pos × Maze :=
  let cache_key : CacheKey := (position, direction, view)
  match lookup_cache m.visible_positions_cache cache_key with
  | some vs => (vs, m)
  | none =>
    let vs := m.compute_visible_positions position direction view
    (vs, { m with visible_positions_cache := (cache_key, vs) :: m.visible_positions_cache })

/-- `Maze::get_cached_visible_positions`: cache-only lookup.  The source
calls `.expect("Visible positions should have been cached")`, a panic on a
missing key; the panic is modelled as `none`. -/
def Maze.get_cached_visible_positions (m : Maze) (position : Pos) (direction : Direction)
    (view : View) : Option (Finset Pos) :=
  lookup_cache m.visible_positions_cache (position, direction, view)

/-- `Maze::increase_attempted`: `self.success_rate.1 += 1`. -/
def Maze.increase_attempted (m : Maze) : Maze :=
  { m with success_rate := (m.success_rate.1, m.success_rate.2 + 1) }

/-- `Maze::decrease_attempted`: `self.success_rate.1 -= 1`.  Unsigned
subtraction underflows when the counter is 0; the underflow panic is
modelled as `none`. -/
def Maze.decrease_attempted (m : Maze) : Option Maze :=
  if m.success_rate.2 = 0 then none
  else some { m with success_rate := (m.success_rate.1, m.success_rate.2 - 1) }

/-- `Maze::increase_passed`: `self.success_rate.0 += 1`. -/
def Maze.increase_passed (m : Maze) : Maze :=
  { m with success_rate := (m.success_rate.1 + 1, m.success_rate.2) }

/-- `Maze::decrease_passed`: `self.success_rate.0 -= 1`, with the underflow
panic at 0 modelled as `none`. -/
def Maze.decrease_passed (m : Maze) : Option Maze :=
  if m.success_rate.1 = 0 then none
  else some { m with success_rate := (m.success_rate.1 - 1, m.success_rate.2) }

/-! ### Cache lemmas and the memoization / counter claims -/

theorem get_and_cache_hit (m : Maze) (p : Pos) (d : Direction) (v : View) (vs : Finset Pos)
    (h : lookup_cache m.visible_positions_cache (p, d, v) = some vs) :
    m.get_and_cache_visible_positions p d v = (vs, m) := by
  simp only [Maze.get_and_cache_visible_positions]
  rw [h]

theorem get_and_cache_miss (m : Maze) (p : Pos) (d : Direction) (v : View)
    (h : lookup_cache m.visible_positions_cache (p, d, v) = none) :
    m.get_and_cache_visible_positions p d v
      = (m.compute_visible_positions p d v,
          { m with visible_positions_cache :=
              ((p, d, v), m.compute_visible_positions p d v) :: m.visible_positions_cache }) := by
  simp only [Maze.get_and_cache_visible_positions]
  rw [h]

/-- After `get_and_cache_visible_positions`, the cache maps the queried key
to the returned set. -/
theorem lookup_after_get_and_cache (m : Maze) (p : Pos) (d : Direction) (v : View) :
    lookup_cache (m.get_and_cache_visible_positions p d v).2.visible_positions_cache (p, d, v)
      = some (m.get_and_cache_visible_positions p d v).1 := by
  cases h : lookup_cache m.visible_positions_cache (p, d, v) with
  | none => rw [get_and_cache_miss m p d v h]; simp [lookup_cache]
  | some vs => rw [get_and_cache_hit m p d v vs h]; exact h

/-- `get_and_cache_visible_positions` does not change the cache entry of any
other key. -/
theorem lookup_after_get_and_cache_other (m : Maze) (p : Pos) (d : Direction) (v : View)
    (k : CacheKey) (hk : k ≠ (p, d, v)) :
    lookup_cache (m.get_and_cache_visible_positions p d v).2.visible_positions_cache k
      = lookup_cache m.visible_positions_cache k := by
  cases h : lookup_cache m.visible_positions_cache (p, d, v) with
  | none =>
    rw [get_and_cache_miss m p d v h]
    simp only [lookup_cache]
    rw [if_neg (fun he => hk he.symm)]
  | some vs => rw [get_and_cache_hit m p d v vs h]

/-- C3: for every maze and key, two successive calls to
`get_and_cache_visible_positions` with that identical key return set-equal
results, and a subsequent `get_cached_visible_positions` with the same key
does not fail (is `some`, never the `expect` panic) and returns the same
set. -/
theorem get_and_cache_idempotent (m : Maze) (p : Pos) (d : Direction) (v : View) :
    ((m.get_and_cache_visible_positions p d v).2.get_and_cache_visible_positions p d v).1
        = (m.get_and_cache_visible_positions p d v).1
      ∧ (((m.get_and_cache_visible_positions p d v).2.get_and_cache_visible_positions
            p d v).2.get_cached_visible_positions p d v)
        = some (m.get_and_cache_visible_positions p d v).1 := by
  have h1 := lookup_after_get_and_cache m p d v
  have h2 := get_and_cache_hit (m.get_and_cache_visible_positions p d v).2 p d v
    (m.get_and_cache_visible_positions p d v).1 h1
  rw [h2]
  exact ⟨rfl, h1⟩

/-- A maze cache is consistent when every stored entry equals what the
visibility computation yields for its key.  This invariant holds for every
maze the program can reach: the cache starts empty and is only ever filled
by `get_and_cache_visible_positions` itself. -/
def cache_consistent (m : Maze) : Prop :=
  ∀ k : CacheKey, ∀ vs : Finset Pos,
    lookup_cache m.visible_positions_cache k = some vs →
      vs = m.compute_visible_positions k.1 k.2.1 k.2.2

theorem mem_full_visible_aux (t : Multiset Pos) (acc : Finset Pos) (x : Pos) :
    x ∈ Multiset.foldr (fun (p : Pos) (s : Finset Pos) => insert p s) acc t
      ↔ x ∈ t ∨ x ∈ acc := by
  induction t using Multiset.induction_on generalizing acc with
  | empty => simp
  | cons a s ih => rw [Multiset.foldr_cons]; simp [ih, or_assoc]

/-- The `Full` branch rebuilds exactly the valid-position set. -/
theorem full_visible_positions_eq (m : Maze) :
    m.full_visible_positions = m.valid_positions := by
  ext x
  unfold Maze.full_visible_positions
  rw [mem_full_visible_aux]
  simp [Finset.mem_val]

/-- C4: with a consistent cache, `get_and_cache_visible_positions` under
`View::Full` returns exactly the entire valid-position set, for every
observer position and every direction (the direction argument is ignored). -/
theorem full_view_returns_valid_positions (m : Maze) (hm : cache_consistent m)
    (p : Pos) (d : Direction) :
    (m.get_and_cache_visible_positions p d View.Full).1 = m.valid_positions := by
  cases h : lookup_cache m.visible_positions_cache (p, d, View.Full) with
  | none =>
    rw [get_and_cache_miss m p d View.Full h]
    simpa [Maze.compute_visible_positions] using full_visible_positions_eq m
  | some vs =>
    rw [get_and_cache_hit m p d View.Full vs h]
    have := hm (p, d, View.Full) vs h
    simpa [this, Maze.compute_visible_positions] using full_visible_positions_eq m

/-- A small concrete maze used by witnesses: empty cache, zero counters. -/
def maze_a : Maze :=
  { id := 0, random_seed := 0, width := 1, height := 1, wall_size := 2, passage_size := 2,
    image_width := 3, image_height := 3,
    valid_positions := {(0, 0), (1, 1), (2, 1)},
    entrance := [], exit := [], power_up_positions := [],
    visible_positions_cache := [], success_rate := (0, 0) }

theorem maze_a_cache_consistent : cache_consistent maze_a := by
  intro k vs h
  exact absurd h (by simp [maze_a, lookup_cache])

theorem full_view_returns_valid_positions_witness :
    cache_consistent maze_a
      ∧ (maze_a.get_and_cache_visible_positions (1, 1) Direction.South View.Full).1
          = maze_a.valid_positions :=
  ⟨maze_a_cache_consistent,
    full_view_returns_valid_positions maze_a maze_a_cache_consistent (1, 1) Direction.South⟩

/-- Replaying a list of perception warm-up calls against a maze: each key is
passed to `get_and_cache_visible_positions` in order. -/
def warm_keys (m : Maze) (ks : List CacheKey) : Maze :=
  ks.foldl (fun mm kk => (mm.get_and_cache_visible_positions kk.1 kk.2.1 kk.2.2).2) m

theorem warm_keys_lookup_none (k : CacheKey) :
    ∀ (ks : List CacheKey) (m : Maze),
      lookup_cache m.visible_positions_cache k = none → k ∉ ks →
        lookup_cache (warm_keys m ks).visible_positions_cache k = none := by
  intro ks
  induction ks with
  | nil => intro m h _; simpa [warm_keys] using h
  | cons k0 ks ih =>
    intro m h hk
    have hne : k ≠ k0 := fun he => hk (he ▸ List.mem_cons_self k0 ks)
    have hstep : lookup_cache
        ((m.get_and_cache_visible_positions k0.1 k0.2.1 k0.2.2).2).visible_positions_cache k
        = none := by
      rw [lookup_after_get_and_cache_other m k0.1 k0.2.1 k0.2.2 k (by simpa using hne)]
      exact h
    have hw : warm_keys m (k0 :: ks)
        = warm_keys ((m.get_and_cache_visible_positions k0.1 k0.2.1 k0.2.2).2) ks := by
      simp [warm_keys]
    rw [hw]
    exact ih _ hstep (fun hmem => hk (List.mem_cons_of_mem _ hmem))

/-- C5: starting from a maze with an empty cache (as every freshly built maze
is) and warming any list of keys that does not contain `k`,
`get_cached_visible_positions` at `k` hits the `expect` panic, modelled as
`none` — it neither returns a recoverable value nor an empty set. -/
theorem get_cached_unwarmed_key_fails (m0 : Maze) (ks : List CacheKey) (k : CacheKey)
    (hempty : m0.visible_positions_cache = []) (hk : k ∉ ks) :
    (warm_keys m0 ks).get_cached_visible_positions k.1 k.2.1 k.2.2 = none := by
  have h0 : lookup_cache m0.visible_positions_cache k = none := by
    rw [hempty]; rfl
  have hres := warm_keys_lookup_none k ks m0 h0 hk
  unfold Maze.get_cached_visible_positions
  simpa using hres

theorem get_cached_unwarmed_key_fails_witness :
    maze_a.visible_positions_cache = []
      ∧ (((1, 1), Direction.North, View.Circle 1) : CacheKey)
          ∉ [(((0, 0), Direction.South, View.Circle 1) : CacheKey)]
      ∧ (warm_keys maze_a [((0, 0), Direction.South, View.Circle 1)]).get_cached_visible_positions
          (1, 1) Direction.North (View.Circle 1) = none :=
  ⟨rfl, by decide,
    get_cached_unwarmed_key_fails maze_a [((0, 0), Direction.South, View.Circle 1)]
      ((1, 1), Direction.North, View.Circle 1) rfl (by decide)⟩

/-- C10: `decrease_attempted` and `decrease_passed` hit the unsigned
underflow (modelled as `none`, the panic) exactly when the respective counter
is 0 — in particular they do not saturate at zero —, and a decrement
directly after a matching increment restores the maze exactly. -/
theorem decrease_counters_underflow (m : Maze) :
    (m.decrease_attempted = none ↔ m.success_rate.2 = 0)
      ∧ (m.decrease_passed = none ↔ m.success_rate.1 = 0)
      ∧ m.increase_attempted.decrease_attempted = some m
      ∧ m.increase_passed.decrease_passed = some m := by
  refine ⟨?_, ?_, ?_, ?_⟩
  · unfold Maze.decrease_attempted
    by_cases h : m.success_rate.2 = 0 <;> simp [h]
  · unfold Maze.decrease_passed
    by_cases h : m.success_rate.1 = 0 <;> simp [h]
  · unfold Maze.increase_attempted Maze.decrease_attempted
    simp
  · unfold Maze.increase_passed Maze.decrease_passed
    simp

/-! ### Line walk machinery for the occlusion and corner-cut claims -/

/-- Number of cells the straight walk inserts: everything up to and including
the first wall, or the whole line. -/
def straight_stop (valid : Pos → Bool) : List Pos → Nat
  | [] => 0
  | p :: rest => if !valid p then 1 else straight_stop valid rest + 1

/-- Number of cells the generic walk inserts: everything up to and including
the first cell that is a wall or whose following diagonal step is a corner
cut, or the whole line. -/
def generic_stop (valid : Pos → Bool) : List Pos → Nat
  | [] => 0
  | [_] => 1
  | p :: n :: rest =>
    if !valid p then 1
    else if corner_cut valid p n then 1
    else generic_stop valid (n :: rest) + 1

theorem walk_straight_eq_take (valid : Pos → Bool) :
    ∀ l : List Pos, walk_straight valid l = l.take (straight_stop valid l) := by
  intro l
  induction l with
  | nil => rfl
  | cons p rest ih =>
    by_cases h : valid p
    · simp [walk_straight, straight_stop, h, ih]
    · simp [walk_straight, straight_stop, h]

theorem walk_generic_eq_take (valid : Pos → Bool) :
    ∀ l : List Pos, walk_generic valid l = l.take (generic_stop valid l) := by
  intro l
  induction l with
  | nil => rfl
  | cons p tail ih =>
    cases tail with
    | nil => rfl
    | cons n rest =>
      by_cases h : valid p
      · by_cases hc : corner_cut valid p n
        · simp [walk_generic, generic_stop, h, hc]
        · simp [walk_generic, generic_stop, h, hc, ih]
      · simp [walk_generic, generic_stop, h]

theorem straight_stop_pos (valid : Pos → Bool) (l : List Pos) (hl : l ≠ []) :
    1 ≤ straight_stop valid l := by
  cases l with
  | nil => exact absurd rfl hl
  | cons p rest =>
    by_cases h : valid p <;> simp [straight_stop, h]

theorem generic_stop_pos (valid : Pos → Bool) (l : List Pos) (hl : l ≠ []) :
    1 ≤ generic_stop valid l := by
  cases l with
  | nil => exact absurd rfl hl
  | cons p tail =>
    cases tail with
    | nil => simp [generic_stop]
    | cons n rest =>
      by_cases h : valid p
      · by_cases hc : corner_cut valid p n <;> simp [generic_stop, h, hc]
      · simp [generic_stop, h]

theorem straight_stop_cons_wall (valid : Pos → Bool) (p : Pos) (rest : List Pos)
    (hp : valid p = false) : straight_stop valid (p :: rest) = 1 := by
  simp [straight_stop, hp]

theorem straight_stop_cons_ok (valid : Pos → Bool) (p : Pos) (rest : List Pos)
    (hp : valid p = true) :
    straight_stop valid (p :: rest) = straight_stop valid rest + 1 := by
  simp [straight_stop, hp]

theorem generic_stop_single (valid : Pos → Bool) (p : Pos) :
    generic_stop valid [p] = 1 := rfl

theorem generic_stop_cons_wall (valid : Pos → Bool) (p n : Pos) (rest : List Pos)
    (hp : valid p = false) : generic_stop valid (p :: n :: rest) = 1 := by
  simp [generic_stop, hp]

theorem generic_stop_cons_cc (valid : Pos → Bool) (p n : Pos) (rest : List Pos)
    (hc : corner_cut valid p n = true) : generic_stop valid (p :: n :: rest) = 1 := by
  by_cases hp : valid p <;> simp [generic_stop, hp, hc]

theorem generic_stop_cons_ok (valid : Pos → Bool) (p n : Pos) (rest : List Pos)
    (hp : valid p = true) (hc : corner_cut valid p n = false) :
    generic_stop valid (p :: n :: rest) = generic_stop valid (n :: rest) + 1 := by
  simp [generic_stop, hp, hc]

theorem straight_stop_le_of_wall (valid : Pos → Bool) :
    ∀ (l : List Pos) (i : Nat) (W : Pos), l.get? i = some W → valid W = false →
      straight_stop valid l ≤ i + 1 := by
  intro l
  induction l with
  | nil => intro i W h _; simp at h
  | cons p rest ih =>
    intro i W h hW
    cases i with
    | zero =>
      simp at h
      subst h
      rw [straight_stop_cons_wall valid _ rest hW]
    | succ i =>
      simp only [List.get?] at h
      by_cases hp : valid p
      · rw [straight_stop_cons_ok valid p rest hp]
        have := ih i W h hW
        omega
      · rw [straight_stop_cons_wall valid p rest (by simpa using hp)]
        omega

theorem straight_stop_eq_first_wall (valid : Pos → Bool) :
    ∀ (l : List Pos) (i : Nat) (W : Pos),
      (∀ j A, j < i → l.get? j = some A → valid A = true) →
      l.get? i = some W → valid W = false →
      straight_stop valid l = i + 1 := by
  intro l
  induction l with
  | nil => intro i W _ h _; simp at h
  | cons p rest ih =>
    intro i W hfirst h hW
    cases i with
    | zero =>
      simp at h
      subst h
      rw [straight_stop_cons_wall valid _ rest hW]
    | succ i =>
      simp only [List.get?] at h
      have hp : valid p = true := hfirst 0 p (Nat.succ_pos i) rfl
      rw [straight_stop_cons_ok valid p rest hp]
      have hrest : ∀ j A, j < i → rest.get? j = some A → valid A = true := by
        intro j A hj hA
        exact hfirst (j + 1) A (Nat.succ_lt_succ hj) hA
      rw [ih i W hrest h hW]

theorem generic_stop_le_of_wall (valid : Pos → Bool) :
    ∀ (l : List Pos) (i : Nat) (W : Pos), l.get? i = some W → valid W = false →
      generic_stop valid l ≤ i + 1 := by
  intro l
  induction l with
  | nil => intro i W h _; simp at h
  | cons p tail ih =>
    intro i W h hW
    cases i with
    | zero =>
      simp at h
      subst h
      cases tail with
      | nil => rw [generic_stop_single]
      | cons n rest => rw [generic_stop_cons_wall valid _ n rest hW]
    | succ i =>
      simp only [List.get?] at h
      cases tail with
      | nil => simp at h
      | cons n rest =>
        by_cases hp : valid p
        · by_cases hc : corner_cut valid p n
          · rw [generic_stop_cons_cc valid p n rest hc]; omega
          · rw [generic_stop_cons_ok valid p n rest hp (by simpa using hc)]
            have := ih i W h hW
            omega
        · rw [generic_stop_cons_wall valid p n rest (by simpa using hp)]; omega

theorem generic_stop_le_of_break (valid : Pos → Bool) :
    ∀ (l : List Pos) (i : Nat) (A B : Pos),
      l.get? i = some A → l.get? (i + 1) = some B →
      (valid A = false ∨ corner_cut valid A B = true) →
      generic_stop valid l ≤ i + 1 := by
  intro l
  induction l with
  | nil => intro i A B h _ _; simp at h
  | cons p tail ih =>
    intro i A B hA hB hbreak
    cases i with
    | zero =>
      simp at hA
      subst hA
      simp only [List.get?] at hB
      cases tail with
      | nil => simp at hB
      | cons n rest =>
        simp at hB
        subst hB
        rcases hbreak with h | h
        · rw [generic_stop_cons_wall valid _ n rest h]
        · rw [generic_stop_cons_cc valid _ n rest h]
    | succ i =>
      simp only [List.get?] at hA hB
      cases tail with
      | nil => simp at hA
      | cons n rest =>
        by_cases hp : valid p
        · by_cases hc : corner_cut valid p n
          · rw [generic_stop_cons_cc valid p n rest hc]; omega
          · rw [generic_stop_cons_ok valid p n rest hp (by simpa using hc)]
            have := ih i A B hA hB hbreak
            omega
        · rw [generic_stop_cons_wall valid p n rest (by simpa using hp)]; omega

theorem generic_stop_eq_first_wall (valid : Pos → Bool) :
    ∀ (l : List Pos) (i : Nat) (W : Pos),
      (∀ j A, j < i → l.get? j = some A → valid A = true) →
      (∀ j A B, j < i → l.get? j = some A → l.get? (j + 1) = some B →
        corner_cut valid A B = false) →
      l.get? i = some W → valid W = false →
      generic_stop valid l = i + 1 := by
  intro l
  induction l with
  | nil => intro i W _ _ h _; simp at h
  | cons p tail ih =>
    intro i W hfirst hnocc h hW
    cases i with
    | zero =>
      simp at h
      subst h
      cases tail with
      | nil => rw [generic_stop_single]
      | cons n rest => rw [generic_stop_cons_wall valid _ n rest hW]
    | succ i =>
      simp only [List.get?] at h
      have hp : valid p = true := hfirst 0 p (Nat.succ_pos i) rfl
      cases tail with
      | nil => simp at h
      | cons n rest =>
        have hc : corner_cut valid p n = false :=
          hnocc 0 p n (Nat.succ_pos i) rfl rfl
        rw [generic_stop_cons_ok valid p n rest hp hc]
        have hrest1 : ∀ j A, j < i → (n :: rest).get? j = some A → valid A = true := by
          intro j A hj hA
          exact hfirst (j + 1) A (Nat.succ_lt_succ hj) hA
        have hrest2 : ∀ j A B, j < i → (n :: rest).get? j = some A →
            (n :: rest).get? (j + 1) = some B → corner_cut valid A B = false := by
          intro j A B hj hA hB
          exact hnocc (j + 1) A B (Nat.succ_lt_succ hj) hA hB
        rw [ih i W hrest1 hrest2 h hW]

theorem bresenham_go_map (steep : Bool) (dx dy ys : Int) :
    ∀ (n : Nat) (x y e : Int),
      (bresenham_go steep dx dy ys n x y e).map (fun c => if steep then c.2 else c.1)
        = (List.range n).map (fun (j : Nat) => (x + (j : Int)).toNat) := by
  intro n
  induction n with
  | zero => intro x y e; rfl
  | succ n ih =>
    intro x y e
    simp only [bresenham_go]
    rw [List.range_succ_eq_map, List.map_cons, List.map_map]
    by_cases hif : 2 * (e + dy) ≥ dx
    · rw [if_pos hif, List.map_cons, ih]
      congr 1
      · cases steep <;> simp
      · apply List.map_congr_left
        intro a _
        simp only [Function.comp_apply]
        congr 1
        push_cast
        ring
    · rw [if_neg hif, List.map_cons, ih]
      congr 1
      · cases steep <;> simp
      · apply List.map_congr_left
        intro a _
        simp only [Function.comp_apply]
        congr 1
        push_cast
        ring

theorem bresenham_go_nodup (steep : Bool) (dx dy ys : Int) (n : Nat) (x y e : Int)
    (hx : 0 ≤ x) : (bresenham_go steep dx dy ys n x y e).Nodup := by
  apply List.Nodup.of_map (fun c => if steep then c.2 else c.1)
  rw [bresenham_go_map]
  have hfn : ((fun (j : Nat) => (x + (j : Int)).toNat) : Nat → Nat)
      = fun j => x.toNat + j := by
    funext j
    omega
  rw [hfn]
  exact (List.nodup_range n).map (add_right_injective x.toNat)

theorem bresenham_line_nodup (p q : Int × Int) (h1 : 0 ≤ p.1) (h2 : 0 ≤ p.2)
    (h3 : 0 ≤ q.1) (h4 : 0 ≤ q.2) : (bresenham_line p q).Nodup := by
  unfold bresenham_line
  apply bresenham_go_nodup
  split_ifs <;> omega

theorem straight_range_nodup (a b : Nat) : (straight_range a b).Nodup := by
  unfold straight_range
  split_ifs
  · exact List.nodup_range' ..
  · exact (List.nodup_reverse).mpr (List.nodup_range' ..)

theorem line_cells_nodup (p c : Pos) : (line_cells p c).Nodup := by
  unfold line_cells
  split_ifs with hx hy
  · exact (straight_range_nodup p.2 c.2).map
      (fun a b h => by simpa using congrArg Prod.snd h)
  · exact (straight_range_nodup p.1 c.1).map
      (fun a b h => by simpa using congrArg Prod.fst h)
  · have hnd : (bresenham_line ((p.1 : Int), (p.2 : Int)) ((c.1 : Int), (c.2 : Int))).Nodup :=
      bresenham_line_nodup _ _ (Int.natCast_nonneg _) (Int.natCast_nonneg _)
        (Int.natCast_nonneg _) (Int.natCast_nonneg _)
    cases hl : bresenham_line ((p.1 : Int), (p.2 : Int)) ((c.1 : Int), (c.2 : Int)) with
    | nil => exact List.nodup_nil
    | cons q0 rest =>
      rw [hl] at hnd
      by_cases hq : q0 = p
      · simpa [hq] using hnd
      · simp only [hq, if_false]
        exact (List.nodup_reverse).mpr hnd

theorem not_mem_take_of_get (l : List Pos) (hl : l.Nodup) (k j : Nat) (hkj : k ≤ j)
    (C : Pos) (hC : l.get? j = some C) : C ∉ l.take k := by
  intro hmem
  obtain ⟨j', hj'⟩ := List.mem_iff_get?.mp hmem
  have hj'lt : j' < k := by
    have hlen : j' < (l.take k).length := (List.get?_eq_some.mp hj').1
    simp only [List.length_take] at hlen
    omega
  have hget : l.get? j' = some C := by
    rw [← List.get?_take hj'lt]
    exact hj'
  have hj'len : j' < l.length := (List.get?_eq_some.mp hget).1
  have : j' = j := List.get?_inj hj'len hl (hget.trans hC.symm)
  omega

theorem walk_line_eq_straight (m : Maze) (p c : Pos) (h : p.1 = c.1 ∨ p.2 = c.2) :
    m.walk_line p c = walk_straight m.is_valid_position (line_cells p c) := by
  simp [Maze.walk_line, h]

theorem walk_line_eq_generic (m : Maze) (p c : Pos) (h : ¬(p.1 = c.1 ∨ p.2 = c.2)) :
    m.walk_line p c = walk_generic m.is_valid_position (line_cells p c) := by
  simp only [Maze.walk_line, if_neg h]

theorem corner_cut_condition (valid : Pos → Bool) (A B : Pos)
    (hdx : B.1 = A.1 + 1 ∨ B.1 + 1 = A.1) (hdy : B.2 = A.2 + 1 ∨ B.2 + 1 = A.2)
    (hB : valid B = true) (hc1 : valid (B.1, A.2) = false) (hc2 : valid (A.1, B.2) = false) :
    corner_cut valid A B = true := by
  unfold corner_cut
  simp only [Bool.or_eq_true, Bool.and_eq_true, decide_eq_true_eq, Bool.not_eq_true']
  rcases hdx with h1 | h1 <;> rcases hdy with h2 | h2
  · exact Or.inl (Or.inl (Or.inr
      ⟨⟨⟨⟨h1, h2⟩, hB⟩, by rw [← h1]; exact hc1⟩, by rw [← h2]; exact hc2⟩))
  · refine Or.inl (Or.inl (Or.inl ⟨⟨⟨⟨h1, h2⟩, hB⟩, by rw [← h1]; exact hc1⟩, ?_⟩))
    have he : A.2 - 1 = B.2 := by omega
    rw [he]
    exact hc2
  · refine Or.inr ⟨⟨⟨⟨h1, h2⟩, hB⟩, ?_⟩, by rw [← h2]; exact hc2⟩
    have he : A.1 - 1 = B.1 := by omega
    rw [he]
    exact hc1
  · refine Or.inl (Or.inr ⟨⟨⟨⟨h1, h2⟩, hB⟩, ?_⟩, ?_⟩)
    · have he : A.1 - 1 = B.1 := by omega
      rw [he]
      exact hc1
    · have he : A.2 - 1 = B.2 := by omega
      rw [he]
      exact hc2

theorem mem_take_of_get (l : List Pos) (i n : Nat) (a : Pos) (h : i < n)
    (hget : l.get? i = some a) : a ∈ l.take n := by
  have : (l.take n).get? i = some a := by
    rw [List.get?_take h]
    exact hget
  exact List.get?_mem this

/-- Membership in the returned set of a non-`Full` computation: a cell the
sweep accumulated survives into the returned set exactly when it passes the
bounds filter and the directional filter. -/
theorem mem_compute_of_sweep (m : Maze) (p : Pos) (d : Direction) (view : View)
    (hview : view ≠ View.Full) (q : Pos) (hq : q ∈ m.sweep p view.radius)
    (hb : m.in_bounds q = true) (hd : direction_filter p d view q = true) :
    q ∈ m.compute_visible_positions p d view := by
  unfold Maze.compute_visible_positions
  rw [if_neg hview]
  simp only [Finset.mem_filter]
  exact ⟨⟨hq, hb⟩, hd⟩

/-- C2: along a generic rasterized sight line, when the step from the walked
cell `A` (at position `i` of the line) to the next cell `B` is diagonal — in
any of the four directions `(+1,+1)`, `(+1,-1)`, `(-1,+1)`, `(-1,-1)` — `B`
is traversable, and both orthogonal cells forming the corner between `A` and
`B` are walls, then `B` (index `i+1`) and every cell past it on that line
are not added to the visible set by the walk of that line. -/
theorem corner_cut_excludes (m : Maze) (p c : Pos) (i : Nat) (A B : Pos)
    (hx : p.1 ≠ c.1) (hy : p.2 ≠ c.2)
    (hA : (line_cells p c).get? i = some A)
    (hB : (line_cells p c).get? (i + 1) = some B)
    (hdx : B.1 = A.1 + 1 ∨ B.1 + 1 = A.1)
    (hdy : B.2 = A.2 + 1 ∨ B.2 + 1 = A.2)
    (hBvalid : m.is_valid_position B = true)
    (hc1 : m.is_valid_position (B.1, A.2) = false)
    (hc2 : m.is_valid_position (A.1, B.2) = false) :
    ∀ j C, i + 1 ≤ j → (line_cells p c).get? j = some C → C ∉ m.walk_line p c := by
  intro j C hj hC
  rw [walk_line_eq_generic m p c (by tauto), walk_generic_eq_take]
  have hstop : generic_stop m.is_valid_position (line_cells p c) ≤ i + 1 := by
    by_cases hAvalid : m.is_valid_position A = true
    · exact generic_stop_le_of_break _ _ i A B hA hB
        (Or.inr (corner_cut_condition _ A B hdx hdy hBvalid hc1 hc2))
    · exact generic_stop_le_of_break _ _ i A B hA hB
        (Or.inl (by simpa using hAvalid))
  exact not_mem_take_of_get _ (line_cells_nodup p c) _ j (le_trans hstop hj) C hC

/-- C1 (amended): along any rasterized sight line whose first wall sits at
index `i`, the walk of that line inserts exactly a prefix of the line ending
at some index `k ≤ i`; if the line is straight, or no diagonal corner cut
fires strictly before the wall, then `k = i` and the wall itself is inserted;
every cell of the line strictly past the stopping index is not added by that
walk; and an accumulated cell reaches the returned set exactly through the
bounds and directional filters. -/
theorem first_wall_on_line (m : Maze) (p c : Pos) (d : Direction) (view : View)
    (i : Nat) (Wc : Pos)
    (hWc : (line_cells p c).get? i = some Wc)
    (hwall : m.is_valid_position Wc = false)
    (hfirst : ∀ j A, j < i → (line_cells p c).get? j = some A →
      m.is_valid_position A = true) :
    ∃ k, k ≤ i ∧ m.walk_line p c = (line_cells p c).take (k + 1)
      ∧ ((p.1 = c.1 ∨ p.2 = c.2 ∨ (∀ j A B, j < i → (line_cells p c).get? j = some A →
            (line_cells p c).get? (j + 1) = some B →
            corner_cut m.is_valid_position A B = false)) →
          (k = i ∧ Wc ∈ m.walk_line p c))
      ∧ (∀ j C, k + 1 ≤ j → (line_cells p c).get? j = some C → C ∉ m.walk_line p c)
      ∧ (∀ q, q ∈ m.sweep p view.radius → m.in_bounds q = true →
          direction_filter p d view q = true → view ≠ View.Full →
            q ∈ m.compute_visible_positions p d view) := by
  by_cases hstraight : p.1 = c.1 ∨ p.2 = c.2
  · have hw : m.walk_line p c
        = (line_cells p c).take (straight_stop m.is_valid_position (line_cells p c)) := by
      rw [walk_line_eq_straight m p c hstraight, walk_straight_eq_take]
    have hs_eq : straight_stop m.is_valid_position (line_cells p c) = i + 1 :=
      straight_stop_eq_first_wall _ _ i Wc hfirst hWc hwall
    refine ⟨i, le_refl i, by rw [hw, hs_eq], ?_, ?_, ?_⟩
    · intro _
      refine ⟨rfl, ?_⟩
      rw [hw, hs_eq]
      exact mem_take_of_get _ i (i + 1) Wc (Nat.lt_succ_self i) hWc
    · intro j C hj hC
      rw [hw, hs_eq]
      exact not_mem_take_of_get _ (line_cells_nodup p c) _ j hj C hC
    · intro q hq hb hd hv
      exact mem_compute_of_sweep m p d view hv q hq hb hd
  · have hw : m.walk_line p c
        = (line_cells p c).take (generic_stop m.is_valid_position (line_cells p c)) := by
      rw [walk_line_eq_generic m p c hstraight, walk_generic_eq_take]
    have hg_le : generic_stop m.is_valid_position (line_cells p c) ≤ i + 1 :=
      generic_stop_le_of_wall _ _ i Wc hWc hwall
    have hne : line_cells p c ≠ [] := by
      intro h0
      rw [h0] at hWc
      simp at hWc
    have hg_pos : 1 ≤ generic_stop m.is_valid_position (line_cells p c) :=
      generic_stop_pos _ _ hne
    refine ⟨generic_stop m.is_valid_position (line_cells p c) - 1, by omega, ?_, ?_, ?_, ?_⟩
    · rw [hw]
      congr 1
      omega
    · intro hcond
      have hnocc : ∀ j A B, j < i → (line_cells p c).get? j = some A →
          (line_cells p c).get? (j + 1) = some B →
          corner_cut m.is_valid_position A B = false := by
        rcases hcond with h | h | h
        · exact absurd (Or.inl h) hstraight
        · exact absurd (Or.inr h) hstraight
        · exact h
      have hg_eq : generic_stop m.is_valid_position (line_cells p c) = i + 1 :=
        generic_stop_eq_first_wall _ _ i Wc hfirst hnocc hWc hwall
      refine ⟨by omega, ?_⟩
      rw [hw, hg_eq]
      exact mem_take_of_get _ i (i + 1) Wc (Nat.lt_succ_self i) hWc
    · intro j C hj hC
      rw [hw]
      have hk : generic_stop m.is_valid_position (line_cells p c) ≤ j := by omega
      exact not_mem_take_of_get _ (line_cells_nodup p c) _ j hk C hC
    · intro q hq hb hd hv
      exact mem_compute_of_sweep m p d view hv q hq hb hd

/-- The full w-by-h pixel grid as a position set. -/
def grid_positions (w h : Nat) : Finset Pos := Finset.range w ×ˢ Finset.range h

/-- A 6x6 maze whose only wall is `(2,3)`: directly south of the observer
`(2,2)`, so outside a north-facing cone. -/
def maze_c1 : Maze :=
  { id := 1, random_seed := 7, width := 1, height := 1, wall_size := 2, passage_size := 2,
    image_width := 6, image_height := 6,
    valid_positions := (grid_positions 6 6).erase (2, 3),
    entrance := [], exit := [], power_up_positions := [],
    visible_positions_cache := [], success_rate := (0, 0) }

/-- A 6x6 maze with walls at `(1,0)`, `(0,1)` (a blocked diagonal corner at
the very first step of the line from `(0,0)` to `(3,3)`) and at `(2,2)` (the
first wall on that line). -/
def maze_c2 : Maze :=
  { id := 1, random_seed := 7, width := 1, height := 1, wall_size := 2, passage_size := 2,
    image_width := 6, image_height := 6,
    valid_positions := ((grid_positions 6 6).erase (1, 0)).erase (0, 1) |>.erase (2, 2),
    entrance := [], exit := [], power_up_positions := [],
    visible_positions_cache := [], success_rate := (0, 0) }

/-- C1 counterexample: the claim "the first wall cell encountered on the
line is included in the returned visible set" fails on the code in two
concrete ways.  In `maze_c1`, the vertical line from observer `(2,2)` to
candidate `(2,4)` meets its first wall `(2,3)` partway; the walk adds it to
the accumulated sweep set, but the north-facing `Cone` directional filter
removes it, so it is absent from the returned set.  In `maze_c2`, on the
diagonal line from `(0,0)` to `(3,3)` the cells before the first wall
`(2,2)` are traversable, yet the corner-cut rejection at the very first
diagonal step stops the walk at `[(0,0)]`, so the first wall is not added at
all. -/
theorem first_wall_returned_counterexample :
    line_cells (2, 2) (2, 4) = [(2, 2), (2, 3), (2, 4)]
      ∧ maze_c1.is_valid_position (2, 2) = true
      ∧ maze_c1.is_valid_position (2, 3) = false
      ∧ ((2, 3) : Pos) ∈ maze_c1.sweep (2, 2) 2
      ∧ ((2, 3) : Pos) ∉
          (maze_c1.get_and_cache_visible_positions (2, 2) Direction.North (View.Cone 2)).1
      ∧ maze_c2.is_valid_position (2, 2) = false
      ∧ ((line_cells (0, 0) (3, 3)).take 2).all
          (fun A => maze_c2.is_valid_position A) = true
      ∧ line_cells (0, 0) (3, 3) = [(0, 0), (1, 1), (2, 2), (3, 3)]
      ∧ maze_c2.walk_line (0, 0) (3, 3) = [(0, 0)] := by
  decide

theorem corner_cut_excludes_witness :
    maze_c2.is_valid_position (1, 1) = true
      ∧ maze_c2.is_valid_position (1, 0) = false
      ∧ maze_c2.is_valid_position (0, 1) = false
      ∧ (∀ j C, 1 ≤ j → (line_cells (0, 0) (3, 3)).get? j = some C →
          C ∉ maze_c2.walk_line (0, 0) (3, 3)) :=
  ⟨by decide, by decide, by decide,
    corner_cut_excludes maze_c2 (0, 0) (3, 3) 0 (0, 0) (1, 1) (by decide) (by decide)
      (by decide) (by decide) (Or.inl rfl) (Or.inl rfl) (by decide) (by decide) (by decide)⟩

theorem first_wall_on_line_witness :
    (line_cells (2, 2) (2, 4)).get? 1 = some (2, 3)
      ∧ maze_c1.is_valid_position (2, 3) = false
      ∧ ∃ k, k ≤ 1 ∧ maze_c1.walk_line (2, 2) (2, 4) = (line_cells (2, 2) (2, 4)).take (k + 1)
          ∧ (((2 : Nat) = 2 ∨ (2 : Nat) = 4 ∨ (∀ j A B, j < 1 →
                (line_cells (2, 2) (2, 4)).get? j = some A →
                (line_cells (2, 2) (2, 4)).get? (j + 1) = some B →
                corner_cut maze_c1.is_valid_position A B = false)) →
              (k = 1 ∧ ((2, 3) : Pos) ∈ maze_c1.walk_line (2, 2) (2, 4)))
          ∧ (∀ j C, k + 1 ≤ j → (line_cells (2, 2) (2, 4)).get? j = some C →
              C ∉ maze_c1.walk_line (2, 2) (2, 4))
          ∧ (∀ q, q ∈ maze_c1.sweep (2, 2) (View.Cone 2).radius →
              maze_c1.in_bounds q = true →
              direction_filter (2, 2) Direction.North (View.Cone 2) q = true →
              View.Cone 2 ≠ View.Full →
                q ∈ maze_c1.compute_visible_positions (2, 2) Direction.North (View.Cone 2)) :=
  ⟨by decide, by decide,
    first_wall_on_line maze_c1 (2, 2) (2, 4) Direction.North (View.Cone 2) 1 (2, 3)
      (by decide) (by decide)
      (fun j A hj hA => by
        have hj0 : j = 0 := by omega
        subst hj0
        rw [show line_cells (2, 2) (2, 4) = [(2, 2), (2, 3), (2, 4)] from by decide] at hA
        simp at hA
        subst hA
        decide)⟩

/-! ### Seeded generation pipeline: entrance/exit carving, rooms, power-ups -/

/-- A deterministic pseudo-random stream with a draw counter: models a
`ChaCha8Rng` instance (whose draws are a pure function of its seed and the
number of values already drawn). -/
structure Rng : Type where
  stream : Nat → Nat
  ctr : Nat

/-- `rng.random_range(lo..hi)`: the next draw mapped into the half-open
range.  (The source panics on an empty range; the theorems below only use it
the way the source does, and determinism is unaffected by this corner.) -/
def Rng.random_range (r : Rng) (lo hi : Nat) : Nat × Rng :=
  (lo + r.stream r.ctr % (hi - lo), { r with ctr := r.ctr + 1 })

/-- `rng.random_range(lo..=hi)`: inclusive upper end. -/
def Rng.random_range_incl (r : Rng) (lo hi : Nat) : Nat × Rng :=
  r.random_range lo (hi + 1)

/-- The `build_entrance` carving loop: starting at column `x`, keep
force-opening the two stacked cells and moving right until both cells of the
current column are already traversable.  `insert_valid_position` writes a
pixel, which panics once the scan passes the image width `W`; the panic (and
so the non-termination of the unbounded source loop) is modelled as `none`. -/
def scan_right_go (W ey : Nat) : Nat → Finset Pos → Nat → Option (Finset Pos × Nat)
  | 0, _, _ => none
  | fuel + 1, v, x =>
    if ((x, ey) : Pos) ∈ v ∧ ((x, ey + 1) : Pos) ∈ v then some (v, x)
    else if x < W then scan_right_go W ey fuel (insert (x, ey + 1) (insert (x, ey) v)) (x + 1)
    else none

/-- The fuel `W + 2` always exceeds the number of loop iterations (the scan
advances one column per step and aborts past column `W`), so the bounded
recursion computes exactly the source loop. -/
def scan_right (W ey : Nat) (v : Finset Pos) (x : Nat) : Option (Finset Pos × Nat) :=
  scan_right_go W ey (W + 2) v x

/-- The mirror `build_exit` carving loop scanning right-to-left from `x`;
`x -= 1` underflows at column 0, modelled as `none`. -/
def scan_left_go (ey : Nat) : Nat → Finset Pos → Nat → Option (Finset Pos × Nat)
  | 0, _, _ => none
  | fuel + 1, v, x =>
    if ((x, ey) : Pos) ∈ v ∧ ((x, ey + 1) : Pos) ∈ v then some (v, x)
    else if x = 0 then none
    else scan_left_go ey fuel (insert (x, ey + 1) (insert (x, ey) v)) (x - 1)

/-- The fuel `x + 1` always suffices: the scan moves one column left per
step and aborts at column 0. -/
def scan_left (ey : Nat) (v : Finset Pos) (x : Nat) : Option (Finset Pos × Nat) :=
  scan_left_go ey (x + 1) v x

/-- The cells of one rectangular room, `y` outer and `x` inner as in the
source. -/
def room_positions (rx ry rw rh : Nat) : List Pos :=
  (List.range' ry rh).flatMap (fun y => (List.range' rx rw).map (fun x => ((x, y) : Pos)))

/-- The per-room loop of `build_extra_rooms`: draw a size and a position for
each room and collect all its cells. -/
def rooms_go (width height W H ws : Nat) : Nat → Rng → List Pos → List Pos × Rng
  | 0, rng, acc => (acc, rng)
  | k + 1, rng, acc =>
    let s1 := rng.random_range_incl 4 (max ((width + height) / 6) 5)
    let s2 := s1.2.random_range_incl 4 (max ((width + height) / 6) 5)
    let s3 := s2.2.random_range ws (W - s1.1 - ws)
    let s4 := s3.2.random_range ws (H - s2.1 - ws)
    rooms_go width height W H ws k s4.2 (acc ++ room_positions s3.1 s4.1 s1.1 s2.1)

/-- `Maze::build_extra_rooms`: 4..=max((w+h)/2,5) rooms, unconditionally
opened. -/
def build_extra_rooms (width height W H ws : Nat) (v : Finset Pos) (rng : Rng) :
    Finset Pos × Rng :=
  let sn := rng.random_range_incl 4 (max ((width + height) / 2) 5)
  let cells := rooms_go width height W H ws sn.1 sn.2 []
  (cells.1.foldl (fun acc p => insert p acc) v, cells.2)

/-- Modelled from the spec: `Position::distance` (defined in the game module
not under src/) is the Euclidean distance between grid positions; on integer
coordinates the f64 comparison `distance > 6.0` is exact and equivalent to
the squared distance exceeding 36. -/
def dist_sq (a b : Pos) : Int :=
  ((a.1 : Int) - (b.1 : Int)) ^ 2 + ((a.2 : Int) - (b.2 : Int)) ^ 2

/-- The `set_power_up_position` candidate filter: distance strictly greater
than 6 from every entrance cell and every exit cell. -/
def power_up_candidate (entr ex : List Pos) (p : Pos) : Bool :=
  entr.all (fun e => decide (dist_sq e p > 36)) && ex.all (fun e => decide (dist_sq e p > 36))

/-- The reservoir-sampling loop of `IteratorRandom::choose_multiple`: the
remaining iterator elements are enumerated from `i = 0`; each draws
`k ∈ 0..i+1+amount` and overwrites slot `k` of the reservoir when `k` is in
range. -/
def choose_multiple_go (amount : Nat) : List Pos → Rng → List Pos → Nat → List Pos × Rng
  | [], rng, res, _ => (res, rng)
  | e :: rest, rng, res, i =>
    let s := rng.random_range 0 (i + 1 + amount)
    choose_multiple_go amount rest s.2 (if s.1 < amount then res.set s.1 e else res) (i + 1)

/-- `choose_multiple(rng, amount)` over a listed iterator: fill the reservoir
with the first `amount` elements, then run the replacement loop. -/
def choose_multiple (rng : Rng) (l : List Pos) (amount : Nat) : List Pos × Rng :=
  choose_multiple_go amount (l.drop amount) rng (l.take amount) 0

/-- `Maze::set_power_up_position`: sample `amount` positions without
replacement from the valid positions whose distance from every entrance and
exit cell exceeds 6.  `enum` models the unspecified `HashSet` iteration
order, and `os` the process-local thread rng (`rand::rng()`). -/
def Maze.set_power_up_position (m : Maze) (enum : Finset Pos → List Pos) (os : Rng)
    (amount : Nat) : Maze :=
  let cands := (enum m.valid_positions).filter (power_up_candidate m.entrance m.exit)
  { m with power_up_positions := (choose_multiple os cands amount).1 }

/-- The deterministic collaborators of `Maze::build`: `chacha` models
`ChaCha8Rng::seed_from_u64` (seed to draw stream), `carve` the seeded
knossos growing-tree maze rendered to transparent pixels, and
`carve_w`/`carve_h` the resulting image dimensions.  All are pure algorithms,
identical across runs. -/
structure Algo : Type where
  chacha : Nat → Nat → Nat
  carve : Nat → Nat → Nat → Nat → Nat → Finset Pos
  carve_w : Nat → Nat → Nat → Nat → Nat
  carve_h : Nat → Nat → Nat → Nat → Nat

/-- The deterministic part of `Maze::build`: draw width/height when unset,
carve the seeded base maze, carve entrance and exit (failing — `none` — when
a scan leaves the grid, the modelled panic of the unbounded source loop), and
open the extra rooms.  Everything here depends only on
`(algo, id, seed, width, height, wall size, passage size)`. -/
def Maze.build_core (algo : Algo) (id seed w0 h0 ws ps : Nat) : Option Maze :=
  let r0 : Rng := ⟨algo.chacha seed, 0⟩
  let sw := if w0 = 0
    then r0.random_range_incl (16 + 2 * (id / 4)) (min (20 + 2 * (id / 2)) 32)
    else (w0, r0)
  let sh := if h0 = 0
    then sw.2.random_range_incl (4 + 2 * (id / 4)) (min (6 + 2 * (id / 2)) 20)
    else (h0, sw.2)
  let width := sw.1
  let height := sh.1
  let W := algo.carve_w width height ws ps
  let H := algo.carve_h width height ws ps
  let v0 := algo.carve seed width height ws ps
  let se := sh.2.random_range ws (H - ws - 1)
  let ey := se.1 / 2 * 2
  let sx := if id = 0 then ws else 0
  (scan_right W ey v0 sx).bind (fun s1 =>
    let sxx := se.2.random_range ws (H - ws - 1)
    let xy := sxx.1 / 2 * 2
    let mx := W - 1
    (scan_left xy s1.1 mx).bind (fun s2 =>
      some
        { id := id, random_seed := seed, width := width, height := height,
          wall_size := ws, passage_size := ps, image_width := W, image_height := H,
          valid_positions := (build_extra_rooms width height W H ws s2.1 sxx.2).1,
          entrance := [(sx, ey), (sx, ey + 1)],
          exit := [(mx, xy), (mx, xy + 1)],
          power_up_positions := [],
          visible_positions_cache := [], success_rate := (0, 0) }))

/-- `Maze::build`: the deterministic core followed by power-up placement,
the only step that consumes the process-local nondeterminism (`os`: thread
rng; `enum`: hash-set iteration order). -/
def Maze.build (algo : Algo) (os : Rng) (enum : Finset Pos → List Pos)
    (id seed w0 h0 ws ps : Nat) : Option Maze :=
  (Maze.build_core algo id seed w0 h0 ws ps).map
    (fun m0 => m0.set_power_up_position enum os (id / 2 + 1))

/-- Power-up placement changes only the `power_up_positions` field. -/
theorem set_power_up_fields (m : Maze) (enum : Finset Pos → List Pos) (os : Rng)
    (amount : Nat) :
    (m.set_power_up_position enum os amount).valid_positions = m.valid_positions
      ∧ (m.set_power_up_position enum os amount).entrance = m.entrance
      ∧ (m.set_power_up_position enum os amount).exit = m.exit := by
  unfold Maze.set_power_up_position
  exact ⟨rfl, rfl, rfl⟩

/-- C6: across two independent runs of `Maze::build` with the same
`(seed, width, height, wall size, passage size)` configuration (and the same
deterministic algorithms), the process-local nondeterminism — thread rng and
hash-set iteration order — has no influence on the valid-position set, the
entrance cell pair, or the exit cell pair: either both runs fail generation
or both produce mazes agreeing on all three. -/
theorem build_deterministic (algo : Algo) (os1 os2 : Rng)
    (enum1 enum2 : Finset Pos → List Pos) (id seed w0 h0 ws ps : Nat) :
    Option.map (fun m : Maze => (m.valid_positions, m.entrance, m.exit))
        (Maze.build algo os1 enum1 id seed w0 h0 ws ps)
      = Option.map (fun m : Maze => (m.valid_positions, m.entrance, m.exit))
        (Maze.build algo os2 enum2 id seed w0 h0 ws ps) := by
  unfold Maze.build
  cases hcore : Maze.build_core algo id seed w0 h0 ws ps with
  | none => rfl
  | some m0 =>
    simp only [Option.map_some']
    have h1 := set_power_up_fields m0 enum1 os1 (id / 2 + 1)
    have h2 := set_power_up_fields m0 enum2 os2 (id / 2 + 1)
    rw [h1.1, h1.2.1, h1.2.2, h2.1, h2.2.1, h2.2.2]

theorem scan_right_go_spec (W ey : Nat) :
    ∀ (fuel x : Nat) (v v' : Finset Pos) (t : Nat),
      scan_right_go W ey fuel v x = some (v', t) →
        v ⊆ v' ∧ ((x, ey) : Pos) ∈ v' ∧ ((x, ey + 1) : Pos) ∈ v' := by
  intro fuel
  induction fuel with
  | zero => intro x v v' t h; exact absurd h (by simp [scan_right_go])
  | succ fuel ih =>
    intro x v v' t h
    rw [scan_right_go] at h
    by_cases hmem : ((x, ey) : Pos) ∈ v ∧ ((x, ey + 1) : Pos) ∈ v
    · rw [if_pos hmem, Option.some.injEq, Prod.mk.injEq] at h
      obtain ⟨hv, ht⟩ := h
      subst hv
      exact ⟨Finset.Subset.refl _, hmem.1, hmem.2⟩
    · rw [if_neg hmem] at h
      by_cases hlt : x < W
      · rw [if_pos hlt] at h
        have hrec := ih (x + 1) _ v' t h
        refine ⟨?_, ?_, ?_⟩
        · intro p hp
          exact hrec.1 (Finset.mem_insert_of_mem (Finset.mem_insert_of_mem hp))
        · exact hrec.1 (Finset.mem_insert_of_mem (Finset.mem_insert_self (x, ey) v))
        · exact hrec.1 (Finset.mem_insert_self (x, ey + 1) _)
      · rw [if_neg hlt] at h
        exact absurd h (by simp)

theorem scan_right_spec (W ey : Nat) (x : Nat) (v v' : Finset Pos) (t : Nat)
    (h : scan_right W ey v x = some (v', t)) :
    v ⊆ v' ∧ ((x, ey) : Pos) ∈ v' ∧ ((x, ey + 1) : Pos) ∈ v' :=
  scan_right_go_spec W ey (W + 2) x v v' t h

theorem scan_left_go_spec (ey : Nat) :
    ∀ (fuel x : Nat) (v v' : Finset Pos) (t : Nat),
      scan_left_go ey fuel v x = some (v', t) →
        v ⊆ v' ∧ ((x, ey) : Pos) ∈ v' ∧ ((x, ey + 1) : Pos) ∈ v' := by
  intro fuel
  induction fuel with
  | zero => intro x v v' t h; exact absurd h (by simp [scan_left_go])
  | succ fuel ih =>
    intro x v v' t h
    rw [scan_left_go] at h
    by_cases hmem : ((x, ey) : Pos) ∈ v ∧ ((x, ey + 1) : Pos) ∈ v
    · rw [if_pos hmem, Option.some.injEq, Prod.mk.injEq] at h
      obtain ⟨hv, ht⟩ := h
      subst hv
      exact ⟨Finset.Subset.refl _, hmem.1, hmem.2⟩
    · rw [if_neg hmem] at h
      by_cases hz : x = 0
      · rw [if_pos hz] at h
        exact absurd h (by simp)
      · rw [if_neg hz] at h
        have hrec := ih (x - 1) _ v' t h
        refine ⟨?_, ?_, ?_⟩
        · intro p hp
          exact hrec.1 (Finset.mem_insert_of_mem (Finset.mem_insert_of_mem hp))
        · exact hrec.1 (Finset.mem_insert_of_mem (Finset.mem_insert_self (x, ey) v))
        · exact hrec.1 (Finset.mem_insert_self (x, ey + 1) _)

theorem scan_left_spec (ey : Nat) (x : Nat) (v v' : Finset Pos) (t : Nat)
    (h : scan_left ey v x = some (v', t)) :
    v ⊆ v' ∧ ((x, ey) : Pos) ∈ v' ∧ ((x, ey + 1) : Pos) ∈ v' :=
  scan_left_go_spec ey (x + 1) x v v' t h

theorem foldl_insert_subset :
    ∀ (l : List Pos) (v : Finset Pos), v ⊆ l.foldl (fun acc p => insert p acc) v := by
  intro l
  induction l with
  | nil => intro v; exact Finset.Subset.refl v
  | cons p rest ih =>
    intro v
    intro q hq
    exact ih (insert p v) (Finset.mem_insert_of_mem hq)

theorem build_extra_rooms_subset (width height W H ws : Nat) (v : Finset Pos) (rng : Rng) :
    v ⊆ (build_extra_rooms width height W H ws v rng).1 := by
  unfold build_extra_rooms
  exact foldl_insert_subset _ v

theorem get_and_cache_preserves (m : Maze) (p : Pos) (d : Direction) (v : View) :
    (m.get_and_cache_visible_positions p d v).2.valid_positions = m.valid_positions
      ∧ (m.get_and_cache_visible_positions p d v).2.entrance = m.entrance
      ∧ (m.get_and_cache_visible_positions p d v).2.exit = m.exit := by
  cases h : lookup_cache m.visible_positions_cache (p, d, v) with
  | none => rw [get_and_cache_miss m p d v h]; exact ⟨rfl, rfl, rfl⟩
  | some vs => rw [get_and_cache_hit m p d v vs h]; exact ⟨rfl, rfl, rfl⟩

theorem build_core_spec (algo : Algo) (id seed w0 h0 ws ps : Nat) (m0 : Maze)
    (h : Maze.build_core algo id seed w0 h0 ws ps = some m0) :
    (∃ a b, m0.entrance = [(a, b), (a, b + 1)]
        ∧ ((a, b) : Pos) ∈ m0.valid_positions ∧ ((a, b + 1) : Pos) ∈ m0.valid_positions)
      ∧ (∃ a b, m0.exit = [(a, b), (a, b + 1)]
        ∧ ((a, b) : Pos) ∈ m0.valid_positions ∧ ((a, b + 1) : Pos) ∈ m0.valid_positions) := by
  simp only [Maze.build_core] at h
  rw [Option.bind_eq_some] at h
  obtain ⟨s1, hs1, h⟩ := h
  rw [Option.bind_eq_some] at h
  obtain ⟨s2, hs2, h⟩ := h
  rw [Option.some.injEq] at h
  subst h
  have hscan1 := scan_right_spec _ _ _ _ _ _ hs1
  have hscan2 := scan_left_spec _ _ _ _ _ hs2
  constructor
  · refine ⟨_, _, rfl, ?_, ?_⟩
    · exact build_extra_rooms_subset _ _ _ _ _ _ _ (hscan2.1 hscan1.2.1)
    · exact build_extra_rooms_subset _ _ _ _ _ _ _ (hscan2.1 hscan1.2.2)
  · refine ⟨_, _, rfl, ?_, ?_⟩
    · exact build_extra_rooms_subset _ _ _ _ _ _ _ hscan2.2.1
    · exact build_extra_rooms_subset _ _ _ _ _ _ _ hscan2.2.2

theorem decrease_attempted_preserves (m m' : Maze) (h : m.decrease_attempted = some m') :
    m'.valid_positions = m.valid_positions ∧ m'.entrance = m.entrance ∧ m'.exit = m.exit := by
  unfold Maze.decrease_attempted at h
  by_cases hz : m.success_rate.2 = 0
  · rw [if_pos hz] at h
    exact absurd h (by simp)
  · rw [if_neg hz, Option.some.injEq] at h
    subst h
    exact ⟨rfl, rfl, rfl⟩

theorem decrease_passed_preserves (m m' : Maze) (h : m.decrease_passed = some m') :
    m'.valid_positions = m.valid_positions ∧ m'.entrance = m.entrance ∧ m'.exit = m.exit := by
  unfold Maze.decrease_passed at h
  by_cases hz : m.success_rate.1 = 0
  · rw [if_pos hz] at h
    exact absurd h (by simp)
  · rw [if_neg hz, Option.some.injEq] at h
    subst h
    exact ⟨rfl, rfl, rfl⟩

/-- C7: after a successful build, the entrance and the exit each consist of
exactly 2 vertically adjacent positions (same x, y differing by 1), all four
of which are members of the valid-position set; and every subsequent
operation of the maze — the cache-mutating visibility accessor and the four
success counters — preserves the valid-position set, the entrance, and the
exit, hence that membership. -/
theorem entrance_exit_invariant (algo : Algo) (os : Rng) (enum : Finset Pos → List Pos)
    (id seed w0 h0 ws ps : Nat) (m : Maze)
    (hb : Maze.build algo os enum id seed w0 h0 ws ps = some m) :
    (∃ a b, m.entrance = [(a, b), (a, b + 1)]
        ∧ ((a, b) : Pos) ∈ m.valid_positions ∧ ((a, b + 1) : Pos) ∈ m.valid_positions)
      ∧ (∃ a b, m.exit = [(a, b), (a, b + 1)]
        ∧ ((a, b) : Pos) ∈ m.valid_positions ∧ ((a, b + 1) : Pos) ∈ m.valid_positions)
      ∧ m.entrance.length = 2 ∧ m.exit.length = 2
      ∧ (∀ p d v,
          (m.get_and_cache_visible_positions p d v).2.valid_positions = m.valid_positions
            ∧ (m.get_and_cache_visible_positions p d v).2.entrance = m.entrance
            ∧ (m.get_and_cache_visible_positions p d v).2.exit = m.exit)
      ∧ (m.increase_attempted.valid_positions = m.valid_positions
          ∧ m.increase_attempted.entrance = m.entrance
          ∧ m.increase_attempted.exit = m.exit)
      ∧ (m.increase_passed.valid_positions = m.valid_positions
          ∧ m.increase_passed.entrance = m.entrance
          ∧ m.increase_passed.exit = m.exit)
      ∧ (∀ m', m.decrease_attempted = some m' →
          m'.valid_positions = m.valid_positions ∧ m'.entrance = m.entrance
            ∧ m'.exit = m.exit)
      ∧ (∀ m', m.decrease_passed = some m' →
          m'.valid_positions = m.valid_positions ∧ m'.entrance = m.entrance
            ∧ m'.exit = m.exit) := by
  unfold Maze.build at hb
  rw [Option.map_eq_some'] at hb
  obtain ⟨m0, hm0, hm⟩ := hb
  subst hm
  have hfields := set_power_up_fields m0 enum os (id / 2 + 1)
  have hcore := build_core_spec algo id seed w0 h0 ws ps m0 hm0
  refine ⟨?_, ?_, ?_, ?_, ?_, ?_, ?_, ?_, ?_⟩
  · rw [hfields.1, hfields.2.1]
    exact hcore.1
  · rw [hfields.1, hfields.2.2]
    exact hcore.2
  · obtain ⟨a, b, he, _, _⟩ := hcore.1
    rw [hfields.2.1, he]
    rfl
  · obtain ⟨a, b, he, _, _⟩ := hcore.2
    rw [hfields.2.2, he]
    rfl
  · intro p d v
    exact get_and_cache_preserves _ p d v
  · exact ⟨rfl, rfl, rfl⟩
  · exact ⟨rfl, rfl, rfl⟩
  · intro m' h
    exact decrease_attempted_preserves _ m' h
  · intro m' h
    exact decrease_passed_preserves _ m' h

theorem choose_multiple_go_spec (amount : Nat) :
    ∀ (rest : List Pos) (rng : Rng) (res : List Pos) (i : Nat),
      (res ++ rest).Nodup →
      (choose_multiple_go amount rest rng res i).1.Nodup
        ∧ ∀ p ∈ (choose_multiple_go amount rest rng res i).1, p ∈ res ++ rest := by
  intro rest
  induction rest with
  | nil =>
    intro rng res i hnd
    exact ⟨by simpa using hnd, fun p hp => by simpa using hp⟩
  | cons e rest ih =>
    intro rng res i hnd
    have hparts := List.nodup_append.mp hnd
    have heres : e ∉ res := fun hmem =>
      (hparts.2.2 hmem (List.mem_cons_self e rest)).elim
    have herest : e ∉ rest := (List.nodup_cons.mp hparts.2.1).1
    set res' := if (rng.random_range 0 (i + 1 + amount)).1 < amount
      then res.set (rng.random_range 0 (i + 1 + amount)).1 e else res with hres'
    have hsub : ∀ p ∈ res', p ∈ res ∨ p = e := by
      intro p hp
      rw [hres'] at hp
      by_cases hk : (rng.random_range 0 (i + 1 + amount)).1 < amount
      · rw [if_pos hk] at hp
        rcases List.mem_or_eq_of_mem_set hp with h | h
        · exact Or.inl h
        · exact Or.inr h
      · rw [if_neg hk] at hp
        exact Or.inl hp
    have hnd' : (res' ++ rest).Nodup := by
      apply List.nodup_append.mpr
      refine ⟨?_, (List.nodup_cons.mp hparts.2.1).2, ?_⟩
      · rw [hres']
        by_cases hk : (rng.random_range 0 (i + 1 + amount)).1 < amount
        · rw [if_pos hk]
          exact hparts.1.set heres
        · rw [if_neg hk]
          exact hparts.1
      · intro p hp hprest
        rcases hsub p hp with h | h
        · exact hparts.2.2 h (List.mem_cons_of_mem e hprest)
        · exact herest (h ▸ hprest)
    have hrec := ih (rng.random_range 0 (i + 1 + amount)).2 res' (i + 1) hnd'
    refine ⟨hrec.1, ?_⟩
    intro p hp
    rcases List.mem_append.mp (hrec.2 p hp) with h | h
    · rcases hsub p h with h2 | h2
      · exact List.mem_append.mpr (Or.inl h2)
      · exact List.mem_append.mpr (Or.inr (h2 ▸ List.mem_cons_self e rest))
    · exact List.mem_append.mpr (Or.inr (List.mem_cons_of_mem e h))

theorem choose_multiple_spec (rng : Rng) (l : List Pos) (amount : Nat) (hl : l.Nodup) :
    (choose_multiple rng l amount).1.Nodup
      ∧ ∀ p ∈ (choose_multiple rng l amount).1, p ∈ l := by
  have h := choose_multiple_go_spec amount (l.drop amount) rng (l.take amount) 0
    (by rw [List.take_append_drop]; exact hl)
  unfold choose_multiple
  refine ⟨h.1, fun p hp => ?_⟩
  have := h.2 p hp
  rwa [List.take_append_drop] at this

/-- C8: after a successful build, every power-up position has squared
Euclidean distance strictly greater than 36 (that is, distance strictly
greater than 6) from every entrance cell and from every exit cell, and the
power-up list has no duplicates.  `enum` only needs to enumerate each set
element at most once, which the source `HashSet` iteration does. -/
theorem power_up_positions_spec (algo : Algo) (os : Rng) (enum : Finset Pos → List Pos)
    (id seed w0 h0 ws ps : Nat) (m : Maze)
    (henum : ∀ s : Finset Pos, (enum s).Nodup)
    (hb : Maze.build algo os enum id seed w0 h0 ws ps = some m) :
    (∀ p ∈ m.power_up_positions,
        (∀ e ∈ m.entrance, dist_sq e p > 36) ∧ (∀ e ∈ m.exit, dist_sq e p > 36))
      ∧ m.power_up_positions.Nodup := by
  unfold Maze.build at hb
  rw [Option.map_eq_some'] at hb
  obtain ⟨m0, hm0, hm⟩ := hb
  subst hm
  unfold Maze.set_power_up_position
  simp only
  have hcands : ((enum m0.valid_positions).filter
      (power_up_candidate m0.entrance m0.exit)).Nodup :=
    (henum m0.valid_positions).filter _
  have hspec := choose_multiple_spec os _ (id / 2 + 1) hcands
  refine ⟨?_, hspec.1⟩
  intro p hp
  have hmem := hspec.2 p hp
  have hfilter := List.of_mem_filter hmem
  unfold power_up_candidate at hfilter
  rw [Bool.and_eq_true] at hfilter
  constructor
  · intro e he
    have := List.all_eq_true.mp hfilter.1 e he
    simpa using this
  · intro e he
    have := List.all_eq_true.mp hfilter.2 e he
    simpa using this

/-- Deterministic collaborators for the concrete witness build: a constant
draw stream and a carved 10x10 all-open grid. -/
def algo0 : Algo :=
  { chacha := fun _ _ => 0,
    carve := fun _ _ _ _ _ => grid_positions 10 10,
    carve_w := fun _ _ _ _ => 10,
    carve_h := fun _ _ _ _ => 10 }

/-- A concrete thread-rng stand-in. -/
def os0 : Rng := ⟨fun _ => 0, 0⟩

/-- A concrete hash-iteration stand-in: row-major order over a 10x10 box,
restricted to the set. -/
def enum0 : Finset Pos → List Pos := fun s =>
  ((List.range 10).flatMap (fun y => (List.range 10).map (fun x => ((x, y) : Pos)))).filter
    (fun p => decide (p ∈ s))

def maze_b : Maze := (Maze.build algo0 os0 enum0 0 5 20 6 2 2).getD maze_a

theorem build_b_eq : Maze.build algo0 os0 enum0 0 5 20 6 2 2 = some maze_b := by decide

theorem enum0_nodup : ∀ s : Finset Pos, (enum0 s).Nodup := fun s =>
  List.Nodup.filter _ (by decide)

theorem entrance_exit_invariant_witness :
    Maze.build algo0 os0 enum0 0 5 20 6 2 2 = some maze_b
      ∧ maze_b.entrance.length = 2 ∧ maze_b.exit.length = 2
      ∧ (∃ a b, maze_b.entrance = [(a, b), (a, b + 1)]
          ∧ ((a, b) : Pos) ∈ maze_b.valid_positions
          ∧ ((a, b + 1) : Pos) ∈ maze_b.valid_positions) :=
  ⟨build_b_eq,
    (entrance_exit_invariant algo0 os0 enum0 0 5 20 6 2 2 maze_b build_b_eq).2.2.1,
    (entrance_exit_invariant algo0 os0 enum0 0 5 20 6 2 2 maze_b build_b_eq).2.2.2.1,
    (entrance_exit_invariant algo0 os0 enum0 0 5 20 6 2 2 maze_b build_b_eq).1⟩

theorem power_up_positions_spec_witness :
    Maze.build algo0 os0 enum0 0 5 20 6 2 2 = some maze_b
      ∧ (∀ p ∈ maze_b.power_up_positions,
          (∀ e ∈ maze_b.entrance, dist_sq e p > 36) ∧ (∀ e ∈ maze_b.exit, dist_sq e p > 36))
      ∧ maze_b.power_up_positions.Nodup :=
  ⟨build_b_eq,
    (power_up_positions_spec algo0 os0 enum0 0 5 20 6 2 2 maze_b enum0_nodup build_b_eq).1,
    (power_up_positions_spec algo0 os0 enum0 0 5 20 6 2 2 maze_b enum0_nodup build_b_eq).2⟩

/-! ### The base-topology contract and termination of the carving scans -/

/-- Modelled from the spec: the base carving step is the external knossos
crate (`GrowingTree`), not code of this repository.  Its contract per the
spec is a *perfect* maze: "a spanning tree over a grid of cells separated by
walls of configurable thickness".  `E` is the set of carved passages between
orthogonally adjacent cells of the `w` by `h` cell grid, stored in either
orientation. -/
def cell_adj (E : Finset (Pos × Pos)) (a b : Pos) : Prop :=
  (a, b) ∈ E ∨ (b, a) ∈ E

/-- Modelled from the spec: carved passages only join orthogonally adjacent
in-bounds cells. -/
def edges_ok (w h : Nat) (E : Finset (Pos × Pos)) : Prop :=
  ∀ e ∈ E, e.1.1 < w ∧ e.1.2 < h ∧ e.2.1 < w ∧ e.2.2 < h ∧
    ((e.1.1 = e.2.1 ∧ (e.1.2 + 1 = e.2.2 ∨ e.2.2 + 1 = e.1.2))
      ∨ (e.1.2 = e.2.2 ∧ (e.1.1 + 1 = e.2.1 ∨ e.2.1 + 1 = e.1.1)))

/-- Modelled from the spec: a perfect maze is in particular connected
("exactly one path between any two cells"): every pair of in-bounds cells is
joined through carved passages. -/
def carve_connected (w h : Nat) (E : Finset (Pos × Pos)) : Prop :=
  ∀ a b : Pos, a.1 < w → a.2 < h → b.1 < w → b.2 < h →
    Relation.ReflTransGen (cell_adj E) a b

/-- The 2x2 passage pixel block of cell `(c, r)` under the repository's
default and only used rendering parameters (wall 2, passage 2, margin 0):
pixels `[2+4c, 3+4c] x [2+4r, 3+4r]`. -/
def cell_pixels (c r : Nat) (p : Pos) : Bool :=
  decide (2 + 4 * c ≤ p.1) && decide (p.1 ≤ 3 + 4 * c) &&
  decide (2 + 4 * r ≤ p.2) && decide (p.2 ≤ 3 + 4 * r)

/-- The opened wall block between cells `(c, r)` and `(c, r+1)`. -/
def vopen_pixels (c r : Nat) (p : Pos) : Bool :=
  decide (2 + 4 * c ≤ p.1) && decide (p.1 ≤ 3 + 4 * c) &&
  decide (4 + 4 * r ≤ p.2) && decide (p.2 ≤ 5 + 4 * r)

/-- The opened wall block between cells `(c, r)` and `(c+1, r)`. -/
def hopen_pixels (c r : Nat) (p : Pos) : Bool :=
  decide (4 + 4 * c ≤ p.1) && decide (p.1 ≤ 5 + 4 * c) &&
  decide (2 + 4 * r ≤ p.2) && decide (p.2 ≤ 3 + 4 * r)

/-- Decidable membership of a carved passage, in either orientation. -/
def edge_mem (E : Finset (Pos × Pos)) (a b : Pos) : Bool :=
  decide ((a, b) ∈ E) || decide ((b, a) ∈ E)

/-- Modelled from the spec: a pixel of the rendered base maze is transparent
(traversable) when it lies in a cell passage block or in an opened wall
block of a carved edge. -/
def render_transparent (w h : Nat) (E : Finset (Pos × Pos)) (p : Pos) : Bool :=
  ((List.range w).any fun c => (List.range h).any fun r => cell_pixels c r p) ||
  ((List.range w).any fun c => (List.range h).any fun r =>
      edge_mem E (c, r) (c, r + 1) && vopen_pixels c r p) ||
  ((List.range w).any fun c => (List.range h).any fun r =>
      edge_mem E (c, r) (c + 1, r) && hopen_pixels c r p)

/-- Modelled from the spec: the traversable-pixel set of the rendered base
topology; the image is `(4w+2)` by `(4h+2)` pixels (wall 2, `w` cells of
passage 2 plus wall 2 each). -/
def render (w h : Nat) (E : Finset (Pos × Pos)) : Finset Pos :=
  (grid_positions (4 * w + 2) (4 * h + 2)).filter
    (fun p => render_transparent w h E p = true)

/-- Any walk through carved passages that starts strictly below cell row
`r'` and ends at or beyond it uses a vertical passage crossing rows
`r' - 1` and `r'`. -/
theorem crossing_edge (w h : Nat) (E : Finset (Pos × Pos)) (hE : edges_ok w h E)
    (r' : Nat) (hr : 1 ≤ r') :
    ∀ a b : Pos, Relation.ReflTransGen (cell_adj E) a b → a.2 < r' → r' ≤ b.2 →
      ∃ c, c < w ∧ cell_adj E (c, r' - 1) (c, r') := by
  intro a b hab
  induction hab using Relation.ReflTransGen.head_induction_on with
  | refl => intro h1 h2; omega
  | head hadj htail ih =>
    rename_i a0 z
    intro ha hb
    by_cases hz : z.2 < r'
    · exact ih hz hb
    · have hedge : a0.1 < w ∧ a0.2 < h ∧ z.1 < w ∧ z.2 < h ∧
          ((a0.1 = z.1 ∧ (a0.2 + 1 = z.2 ∨ z.2 + 1 = a0.2))
            ∨ (a0.2 = z.2 ∧ (a0.1 + 1 = z.1 ∨ z.1 + 1 = a0.1))) := by
        rcases hadj with h | h
        · exact hE (a0, z) h
        · have := hE (z, a0) h
          exact ⟨this.2.2.1, this.2.2.2.1, this.1, this.2.1, by tauto⟩
      have hvert : a0.1 = z.1 ∧ a0.2 + 1 = z.2 := by
        rcases hedge.2.2.2.2 with ⟨h1, h2⟩ | ⟨h1, h2⟩
        · refine ⟨h1, ?_⟩
          omega
        · omega
      refine ⟨a0.1, hedge.1, ?_⟩
      have h1 : a0.2 = r' - 1 := by omega
      have h2 : z.2 = r' := by omega
      have ha0 : a0 = (a0.1, r' - 1) := by
        rw [← h1]
      have hz2 : z = (a0.1, r') := by
        rw [hvert.1, ← h2]
      rw [ha0, hz2] at hadj
      exact hadj

theorem transparent_cell (w h : Nat) (E : Finset (Pos × Pos)) (c r : Nat) (p : Pos)
    (hc : c < w) (hr : r < h) (hp : cell_pixels c r p = true) :
    render_transparent w h E p = true := by
  unfold render_transparent
  simp only [Bool.or_eq_true, List.any_eq_true, List.mem_range, Bool.and_eq_true]
  exact Or.inl (Or.inl ⟨c, hc, r, hr, hp⟩)

theorem transparent_vopen (w h : Nat) (E : Finset (Pos × Pos)) (c r : Nat) (p : Pos)
    (hc : c < w) (hr : r < h) (he : edge_mem E (c, r) (c, r + 1) = true)
    (hp : vopen_pixels c r p = true) : render_transparent w h E p = true := by
  unfold render_transparent
  simp only [Bool.or_eq_true, List.any_eq_true, List.mem_range, Bool.and_eq_true]
  exact Or.inl (Or.inr ⟨c, hc, r, hr, he, hp⟩)

theorem mem_render_of (w h : Nat) (E : Finset (Pos × Pos)) (p : Pos)
    (h1 : p.1 < 4 * w + 2) (h2 : p.2 < 4 * h + 2)
    (ht : render_transparent w h E p = true) : p ∈ render w h E := by
  unfold render grid_positions
  rw [Finset.mem_filter, Finset.mem_product]
  exact ⟨⟨Finset.mem_range.mpr h1, Finset.mem_range.mpr h2⟩, ht⟩

/-- In the rendered base maze of a connected carving, every even-aligned row
within the vertical margins has an interior column whose two stacked pixels
are both traversable: a connection point for the carving scans. -/
theorem stacked_open_pair (w h : Nat) (E : Finset (Pos × Pos)) (hw : 1 ≤ w) (hh : 1 ≤ h)
    (hE : edges_ok w h E) (hconn : carve_connected w h E)
    (ey : Nat) (heven : ey % 2 = 0) (hlo : 2 ≤ ey) (hhi : ey ≤ 4 * h - 2) :
    ∃ x, 2 ≤ x ∧ x < 4 * w + 2 ∧ ((x, ey) : Pos) ∈ render w h E
      ∧ ((x, ey + 1) : Pos) ∈ render w h E := by
  by_cases hmod : ey % 4 = 2
  · refine ⟨2, le_refl 2, by omega, ?_, ?_⟩
    · apply mem_render_of w h E (2, ey) (by omega) (by omega)
      apply transparent_cell w h E 0 (ey / 4) _ (by omega) (by omega)
      unfold cell_pixels
      simp only [Bool.and_eq_true, decide_eq_true_eq]
      omega
    · apply mem_render_of w h E (2, ey + 1) (by omega) (by omega)
      apply transparent_cell w h E 0 (ey / 4) _ (by omega) (by omega)
      unfold cell_pixels
      simp only [Bool.and_eq_true, decide_eq_true_eq]
      omega
  · have hmod0 : ey % 4 = 0 := by omega
    have hrr : 1 ≤ ey / 4 := by omega
    have hpath := hconn (0, ey / 4 - 1) (0, ey / 4)
      (by simpa using hw) (by simp; omega) (by simpa using hw) (by simp; omega)
    obtain ⟨c, hc, hadj⟩ := crossing_edge w h E hE (ey / 4) hrr (0, ey / 4 - 1) (0, ey / 4)
      hpath (by simp; omega) (by simp)
    have hedge : edge_mem E (c, ey / 4 - 1) (c, (ey / 4 - 1) + 1) = true := by
      have hstep : (ey / 4 - 1) + 1 = ey / 4 := by omega
      rw [hstep]
      unfold edge_mem
      simp only [Bool.or_eq_true, decide_eq_true_eq]
      exact hadj
    refine ⟨2 + 4 * c, by omega, by omega, ?_, ?_⟩
    · apply mem_render_of w h E (2 + 4 * c, ey) (by omega) (by omega)
      apply transparent_vopen w h E c (ey / 4 - 1) _ hc (by omega) hedge
      unfold vopen_pixels
      simp only [Bool.and_eq_true, decide_eq_true_eq]
      omega
    · apply mem_render_of w h E (2 + 4 * c, ey + 1) (by omega) (by omega)
      apply transparent_vopen w h E c (ey / 4 - 1) _ hc (by omega) hedge
      unfold vopen_pixels
      simp only [Bool.and_eq_true, decide_eq_true_eq]
      omega

theorem scan_right_go_succeeds (W ey : Nat) (v0 : Finset Pos) (xstar : Nat)
    (hstar1 : ((xstar, ey) : Pos) ∈ v0) (hstar2 : ((xstar, ey + 1) : Pos) ∈ v0)
    (hsW : xstar ≤ W) :
    ∀ (fuel x : Nat) (v : Finset Pos),
      x ≤ xstar → xstar - x < fuel →
      v0 ⊆ v → (∀ p ∈ v, p ∈ v0 ∨ p.1 < x) →
      ∃ v' t, scan_right_go W ey fuel v x = some (v', t)
        ∧ ((t, ey) : Pos) ∈ v0 ∧ ((t, ey + 1) : Pos) ∈ v0 ∧ x ≤ t ∧ t ≤ xstar := by
  intro fuel
  induction fuel with
  | zero => intro x v h1 h2 _ _; omega
  | succ fuel ih =>
    intro x v hxs hfuel hsub hinv
    rw [scan_right_go]
    by_cases hmem : ((x, ey) : Pos) ∈ v ∧ ((x, ey + 1) : Pos) ∈ v
    · rw [if_pos hmem]
      refine ⟨v, x, rfl, ?_, ?_, le_refl x, hxs⟩
      · rcases hinv _ hmem.1 with hor | hor
        · exact hor
        · simp at hor
      · rcases hinv _ hmem.2 with hor | hor
        · exact hor
        · simp at hor
    · rw [if_neg hmem]
      have hxlt : x < xstar := by
        rcases Nat.lt_or_ge x xstar with hlt | hge
        · exact hlt
        · have hx : x = xstar := by omega
          subst hx
          exact absurd ⟨hsub hstar1, hsub hstar2⟩ hmem
      rw [if_pos (by omega : x < W)]
      have hrec := ih (x + 1) (insert (x, ey + 1) (insert (x, ey) v)) (by omega) (by omega)
        (fun p hp => Finset.mem_insert_of_mem (Finset.mem_insert_of_mem (hsub hp)))
        (by
          intro p hp
          rcases Finset.mem_insert.mp hp with hp1 | hp1
          · subst hp1
            exact Or.inr (by omega)
          · rcases Finset.mem_insert.mp hp1 with hp2 | hp2
            · subst hp2
              exact Or.inr (by omega)
            · rcases hinv p hp2 with hor | hor
              · exact Or.inl hor
              · exact Or.inr (by omega))
      obtain ⟨v', t, heq, ht1, ht2, ht3, ht4⟩ := hrec
      exact ⟨v', t, heq, ht1, ht2, by omega, ht4⟩

theorem scan_left_go_succeeds (ey : Nat) (v0 : Finset Pos) (xstar : Nat)
    (hstar1 : ((xstar, ey) : Pos) ∈ v0) (hstar2 : ((xstar, ey + 1) : Pos) ∈ v0) :
    ∀ (fuel x : Nat) (v : Finset Pos),
      xstar ≤ x → x - xstar < fuel →
      v0 ⊆ v → (∀ p ∈ v, p ∈ v0 ∨ x < p.1) →
      ∃ v' t, scan_left_go ey fuel v x = some (v', t)
        ∧ ((t, ey) : Pos) ∈ v0 ∧ ((t, ey + 1) : Pos) ∈ v0 ∧ t ≤ x ∧ xstar ≤ t := by
  intro fuel
  induction fuel with
  | zero => intro x v h1 h2 _ _; omega
  | succ fuel ih =>
    intro x v hxs hfuel hsub hinv
    rw [scan_left_go]
    by_cases hmem : ((x, ey) : Pos) ∈ v ∧ ((x, ey + 1) : Pos) ∈ v
    · rw [if_pos hmem]
      refine ⟨v, x, rfl, ?_, ?_, le_refl x, hxs⟩
      · rcases hinv _ hmem.1 with hor | hor
        · exact hor
        · simp at hor
      · rcases hinv _ hmem.2 with hor | hor
        · exact hor
        · simp at hor
    · rw [if_neg hmem]
      have hxgt : xstar < x := by
        rcases Nat.lt_or_ge xstar x with hlt | hge
        · exact hlt
        · have hx : x = xstar := by omega
          subst hx
          exact absurd ⟨hsub hstar1, hsub hstar2⟩ hmem
      rw [if_neg (by omega : ¬x = 0)]
      have hrec := ih (x - 1) (insert (x, ey + 1) (insert (x, ey) v)) (by omega) (by omega)
        (fun p hp => Finset.mem_insert_of_mem (Finset.mem_insert_of_mem (hsub hp)))
        (by
          intro p hp
          rcases Finset.mem_insert.mp hp with hp1 | hp1
          · subst hp1
            exact Or.inr (by omega)
          · rcases Finset.mem_insert.mp hp1 with hp2 | hp2
            · subst hp2
              exact Or.inr (by omega)
            · rcases hinv p hp2 with hor | hor
              · exact Or.inl hor
              · exact Or.inr (by omega))
      obtain ⟨v', t, heq, ht1, ht2, ht3, ht4⟩ := hrec
      exact ⟨v', t, heq, ht1, ht2, by omega, ht4⟩

/-- C9: for every base topology satisfying the carving contract (a connected
perfect-maze carving rendered at the repository's wall/passage sizes 2 and
2), for every entrance row the generator can draw (an even-aligned row
within the vertical margins) and both entrance starting columns, the
entrance scan terminates inside the grid, stopping at two vertically stacked
cells that are already traversable in the base topology; and the mirror exit
scan, started from the right edge on any set extending the base topology (as
it is after entrance carving), terminates at two vertically stacked cells
already traversable at the start of that scan.  In particular entrance and
exit connect to the generated topology. -/
theorem carving_scans_terminate (w h : Nat) (E : Finset (Pos × Pos))
    (hw : 1 ≤ w) (hh : 1 ≤ h) (hE : edges_ok w h E) (hconn : carve_connected w h E)
    (v x0 : Nat) (hv1 : 2 ≤ v) (hv2 : v < 4 * h + 2 - 2 - 1) (hx0 : x0 ≤ 2) :
    (∃ v' t, scan_right (4 * w + 2) (v / 2 * 2) (render w h E) x0 = some (v', t)
        ∧ ((t, v / 2 * 2) : Pos) ∈ render w h E
        ∧ ((t, v / 2 * 2 + 1) : Pos) ∈ render w h E
        ∧ x0 ≤ t ∧ t < 4 * w + 2)
      ∧ (∀ vext : Finset Pos, render w h E ⊆ vext →
          ∃ v' t, scan_left (v / 2 * 2) vext (4 * w + 2 - 1) = some (v', t)
            ∧ ((t, v / 2 * 2) : Pos) ∈ vext ∧ ((t, v / 2 * 2 + 1) : Pos) ∈ vext
            ∧ 2 ≤ t ∧ t ≤ 4 * w + 2 - 1) := by
  obtain ⟨xs, hxs2, hxsW, hmem1, hmem2⟩ := stacked_open_pair w h E hw hh hE hconn
    (v / 2 * 2) (by omega) (by omega) (by omega)
  constructor
  · have hgo := scan_right_go_succeeds (4 * w + 2) (v / 2 * 2) (render w h E) xs hmem1 hmem2
      (by omega) (4 * w + 2 + 2) x0 (render w h E) (by omega) (by omega)
      (Finset.Subset.refl _) (fun p hp => Or.inl hp)
    obtain ⟨v', t, heq, ht1, ht2, ht3, ht4⟩ := hgo
    exact ⟨v', t, heq, ht1, ht2, ht3, by omega⟩
  · intro vext hext
    have hgo := scan_left_go_succeeds (v / 2 * 2) vext xs (hext hmem1) (hext hmem2)
      ((4 * w + 2 - 1) + 1) (4 * w + 2 - 1) vext (by omega) (by omega)
      (Finset.Subset.refl _) (fun p hp => Or.inl hp)
    obtain ⟨v', t, heq, ht1, ht2, ht3, ht4⟩ := hgo
    exact ⟨v', t, heq, ht1, ht2, by omega, ht3⟩

theorem carving_scans_terminate_witness :
    edges_ok 1 1 ∅ ∧ carve_connected 1 1 ∅
      ∧ (∃ v' t, scan_right 6 2 (render 1 1 ∅) 2 = some (v', t)
          ∧ ((t, 2) : Pos) ∈ render 1 1 ∅ ∧ ((t, 3) : Pos) ∈ render 1 1 ∅
          ∧ 2 ≤ t ∧ t < 6)
      ∧ (∃ v' t, scan_left 2 (render 1 1 ∅) 5 = some (v', t)
          ∧ ((t, 2) : Pos) ∈ render 1 1 ∅ ∧ ((t, 3) : Pos) ∈ render 1 1 ∅
          ∧ 2 ≤ t ∧ t ≤ 5) := by
  have hE : edges_ok 1 1 ∅ := by
    intro e he
    simp at he
  have hconn : carve_connected 1 1 ∅ := by
    intro a b ha1 ha2 hb1 hb2
    obtain ⟨a1, a2⟩ := a
    obtain ⟨b1, b2⟩ := b
    simp only [Nat.lt_one_iff] at ha1 ha2 hb1 hb2
    subst ha1
    subst ha2
    subst hb1
    subst hb2
    exact Relation.ReflTransGen.refl
  have hmain := carving_scans_terminate 1 1 ∅ (le_refl 1) (le_refl 1) hE hconn 2 2
    (le_refl 2) (by omega) (le_refl 2)
  exact ⟨hE, hconn, hmain.1, hmain.2 (render 1 1 ∅) (Finset.Subset.refl _)⟩
